import Mathlib

/-!
Verification development for the Sand game's cell update engine
(`src/logic.js`).  The grid holds string tile tags (the keys of
`TILE_COLORS`) and, transiently during a physics pass, the numeric
sentinel `-1`; out-of-range array reads yield JavaScript `undefined`.
All three kinds of values are embedded in one type `Cell`.
-/

/-- A value that can be observed in (or read from) the tile grid:
a tile tag string (one of the keys of `TILE_COLORS`), the numeric
"already moved" sentinel `-1`, or JavaScript `undefined` as produced
by an out-of-range array read. -/
inductive Cell where
  | tile (tag : String)
  | moved
  | undef
deriving DecidableEq, Repr

/-- `TILE_AIR = "a"` (logic.js line 2). -/
def TILE_AIR : Cell := Cell.tile "a"

/-- `TILE_LAND = "l"` (logic.js line 3). -/
def TILE_LAND : Cell := Cell.tile "l"

/-- `TILE_WATER = "w"` (logic.js line 4). -/
def TILE_WATER : Cell := Cell.tile "w"

/-- `TILE_STATIC = "s"` (logic.js line 5). -/
def TILE_STATIC : Cell := Cell.tile "s"

/-- `TILE_TYPES` (logic.js line 7), used for random screen initialization. -/
def TILE_TYPES : List Cell := [TILE_AIR, TILE_LAND, TILE_WATER, TILE_STATIC]

/-- `TILE_COLORS` (logic.js lines 9-26): the tile-tag → color-string map,
as an association list in source order. -/
def TILE_COLORS : List (String × String) :=
  [("a", "#ffffff"), ("l", "#2affa2"), ("w", "#add8e6"), ("s", "#000000"),
   ("0", "#000000"), ("1", "#f7941d"), ("2", "#00ffff"), ("3", "#fff200"),
   ("4", "#00ff00"), ("5", "#ec008c"), ("6", "#959595"), ("7", "#92278f"),
   ("8", "#0000ff"), ("9", "#ff00ff"), ("-", "#754c24"), ("=", "#ed1c24")]

/-- The tags of the public tile-value set: exactly the keys of `TILE_COLORS`. -/
def publicTags : List String :=
  ["a", "l", "w", "s", "0", "1", "2", "3", "4", "5", "6", "7", "8", "9", "-", "="]

/-- The static-variant tags: `TILE_STATIC` plus the color tags; the public
tags other than air, land and water. -/
def staticTags : List String :=
  ["s", "0", "1", "2", "3", "4", "5", "6", "7", "8", "9", "-", "="]

/-- Whether a cell value belongs to the public enumerated tile-value set
(i.e. is a tile tag among the keys of `TILE_COLORS`; in particular it is
neither the `-1` sentinel nor `undefined`). -/
def Cell.public : Cell → Bool
  | Cell.tile t => publicTags.contains t
  | _ => false

/-- The tile grid: `W` columns × `H` rows (`horizontalTileCount` and
`verticalTileCount`), addressed `cells x y` like `tiles[x][y]` in the
source.  `cells` is a total function; only the region
`[0, W) × [0, H)` is the grid proper, and reads go through `Grid.get`,
which yields `undefined` out of range like a JavaScript array. -/
structure Grid where
  W : Nat
  H : Nat
  cells : Nat → Nat → Cell

/-- Read `tiles[x][y]`: the stored value in range, `undefined` out of range. -/
def Grid.get (g : Grid) (x y : Nat) : Cell :=
  if x < g.W ∧ y < g.H then g.cells x y else Cell.undef

/-- Write `tiles[x][y] = v` (pointwise update of the cell function). -/
def Grid.set (g : Grid) (x y : Nat) (v : Cell) : Grid :=
  { g with cells := fun a b => if a = x ∧ b = y then v else g.cells a b }

/-- Build a grid from a list of columns (the shape of `this.tiles`). -/
def Grid.ofCols (l : List (List Cell)) : Grid :=
  { W := l.length
    H := (l.headD []).length
    cells := fun x y => (l.getD x []).getD y Cell.undef }

/-- One entry of `tilesToRedraw`: `{ x: .., y: .., value: .. }` — a
changed-cell record handed to the Render Sink. -/
structure ChangedCell where
  x : Nat
  y : Nat
  value : Cell
deriving DecidableEq, Repr

/-- How many records of `recs` carry the value `v`. -/
def countRecs (recs : List ChangedCell) (v : Cell) : Nat :=
  recs.countP fun r => r.value == v

/-- How many grid-proper cells of `g` hold the value `v`. -/
def Grid.count (g : Grid) (v : Cell) : Nat :=
  ∑ p ∈ Finset.range g.W ×ˢ Finset.range g.H, if g.cells p.1 p.2 = v then 1 else 0

/-- The multiset of values held by the grid-proper cells of `g`. -/
def Grid.valueMultiset (g : Grid) : Multiset Cell :=
  (Finset.range g.W ×ˢ Finset.range g.H).val.map fun p => g.cells p.1 p.2

/-- Every grid-proper cell holds a public tile value (no sentinel, no
`undefined`, no junk tag). -/
def Grid.Clean (g : Grid) : Prop :=
  ∀ x < g.W, ∀ y < g.H, (g.get x y).public = true

instance Grid.cleanDecidable (g : Grid) : Decidable g.Clean :=
  inferInstanceAs (Decidable (∀ x < g.W, ∀ y < g.H, (g.get x y).public = true))

/-- The vertical (gravity) trigger of `applyPhysics` (logic.js lines
266-270): land falls through air or water, water falls through air. -/
def vertMove (tile tileBelow : Cell) : Bool :=
  (tile == TILE_LAND && (tileBelow == TILE_AIR || tileBelow == TILE_WATER)) ||
  (tile == TILE_WATER && tileBelow == TILE_AIR)

/-- The horizontal (coin-flip liquid flow) trigger of `applyPhysics`
(logic.js lines 292-296): on heads, water moves left into air when not
free-falling; on tails, air moves left out of water (water flows right)
when the water is not free-falling. -/
def horizMove (coin : Bool) (tile tileBefore tileBelow tileBelowBefore : Cell) : Bool :=
  (coin && tile == TILE_WATER && tileBefore == TILE_AIR && !(tileBelow == TILE_AIR)) ||
  (!coin && tile == TILE_AIR && tileBefore == TILE_WATER && !(tileBelowBefore == TILE_AIR))

/-- The body of the inner scan loop of `applyPhysics` (logic.js lines
260-309) at cell `p = (x, y)`, acting on the accumulated state
`st = (tiles, tilesToRedraw)`.  `tile` and `tileBelow` are read before
the `y < M - 1` guard; after a vertical swap the already-updated grid is
consulted for `tileBefore`/`tileBelowBefore` while the stale `tile` and
`tileBelow` variables keep their pre-swap values, exactly as in the
source.  `coins x y` is the `Math.floor(Math.random() * 2)` coin flip
drawn when the cell's horizontal block runs. -/
def stepCell (coins : Nat → Nat → Bool) (st : Grid × List ChangedCell)
    (p : Nat × Nat) : Grid × List ChangedCell :=
  let g := st.1
  let recs := st.2
  let x := p.1
  let y := p.2
  let tile := g.get x y
  let tileBelow := g.get x (y + 1)
  if y < g.H - 1 then
    let vert := vertMove tile tileBelow
    let g1 := if vert then (g.set x y Cell.moved).set x (y + 1) Cell.moved else g
    let recs1 := if vert then
        recs ++ [⟨x, y, tileBelow⟩, ⟨x, y + 1, tile⟩] else recs
    if 0 < x then
      let tileBefore := g1.get (x - 1) y
      let tileBelowBefore := g1.get (x - 1) (y + 1)
      if horizMove (coins x y) tile tileBefore tileBelow tileBelowBefore then
        ((g1.set x y Cell.moved).set (x - 1) y Cell.moved,
         recs1 ++ [⟨x, y, tileBefore⟩, ⟨x - 1, y, tile⟩])
      else (g1, recs1)
    else (g1, recs1)
  else (g, recs)

/-- `Sand.prototype.applyPhysics` (logic.js lines 250-314): scan the grid
column by column (`x` ascending), top to bottom within each column
(`y` ascending), applying `stepCell`; returns the updated grid — which
may still hold sentinels — together with `tilesToRedraw`. -/
def applyPhysics (g : Grid) (coins : Nat → Nat → Bool) : Grid × List ChangedCell :=
  (List.range g.W).foldl
    (fun st x => (List.range g.H).foldl (fun st2 y => stepCell coins st2 (x, y)) st)
    (g, [])

/-- The grid effect of `Sand.prototype.drawScreen` (logic.js lines
227-240): write each record's value at its coordinates, in list order
(the canvas fill beside each write is the external Render Sink). -/
def drawScreen (g : Grid) (tilesToRedraw : List ChangedCell) : Grid :=
  tilesToRedraw.foldl (fun t r => t.set r.x r.y r.value) g

/-- One iteration of the body of `Sand.prototype.render` (logic.js lines
324-332): run `applyPhysics`, then redraw (and thereby re-store) the
changed cells.  Returns the resulting grid and the records that were
handed to the Render Sink. -/
def renderStep (g : Grid) (coins : Nat → Nat → Bool) : Grid × List ChangedCell :=
  let res := applyPhysics g coins
  (drawScreen res.1 res.2, res.2)

/-- The value the redraw leaves at `(x, y)`: the value of the last record
of `tilesToRedraw` addressing `(x, y)`, if any. -/
def lastWrite (tilesToRedraw : List ChangedCell) (x y : Nat) : Option Cell :=
  tilesToRedraw.foldl
    (fun acc r => if r.x = x ∧ r.y = y then some r.value else acc) none

/-- `Sand.prototype.updateCurrentTileType` (logic.js lines 148-153): a key
press replaces the current drawing tile type only when the key is a key
of `TILE_COLORS` (JavaScript: `if (!TILE_COLORS[event.key]) return`). -/
def updateCurrentTileType (currentTileType : String) (key : String) : String :=
  match TILE_COLORS.lookup key with
  | none => currentTileType
  | some _ => key

/-- The sequence of `tiles[..][..]` index pairs read by one `applyPhysics`
scan of a `W × H` grid, in scan order: `tiles[x][y]` and `tiles[x][y+1]`
are read for every visited cell (logic.js lines 260-261, before the
`y < M - 1` guard); `tiles[x-1][y]` and `tiles[x-1][y+1]` only inside the
`y < M - 1` and `x > 0` guards (lines 287-288). -/
def scanReads (W H : Nat) : List (Nat × Nat) :=
  (List.range W).foldl
    (fun acc x => (List.range H).foldl
      (fun acc2 y =>
        acc2 ++ [(x, y), (x, y + 1)] ++
          (if y < H - 1 ∧ 0 < x then [(x - 1, y), (x - 1, y + 1)] else []))
      acc)
    []

/-- A 1-column grid, land above air: the smallest grid on which the
physics pass performs a swap. -/
def gFall : Grid := Grid.ofCols [[TILE_LAND, TILE_AIR]]

/-- Column 0 `[static, air, air]`, column 1 `[land, water, air]`: the
water tile at `(1,1)` has air below, air to the left and air below-left,
but land directly above it. -/
def gCapture : Grid :=
  Grid.ofCols [[TILE_STATIC, TILE_AIR, TILE_AIR], [TILE_LAND, TILE_WATER, TILE_AIR]]

/-- Column 0 `[water, static]`, column 1 `[air, land]`: used to witness
the per-cell rule theorems. -/
def gSide : Grid :=
  Grid.ofCols [[TILE_WATER, TILE_STATIC], [TILE_AIR, TILE_LAND]]

/-- Column 0 `[air, air]`, column 1 `[water, air]`: a single water tile
with air below, air to the left and air below-left (Scenario B). -/
def gScenB : Grid :=
  Grid.ofCols [[TILE_AIR, TILE_AIR], [TILE_WATER, TILE_AIR]]

/-- A constant coin stream (every flip is heads). -/
def coinsT : Nat → Nat → Bool := fun _ _ => true

/-- A constant coin stream (every flip is tails). -/
def coinsF : Nat → Nat → Bool := fun _ _ => false

/-- The invariant relating the original grid `g0` to the mid-scan state
`(g, recs)` of `applyPhysics`:  the dimensions are unchanged; record
coordinates are pairwise distinct and in bounds; every record addresses a
currently sentineled cell and carries one of the three mobile tile values;
every sentineled cell was sentineled at start or is addressed by a record;
cells not sentineled still hold their original values; and for every
non-sentinel value the grid count plus the record count equals the
original grid count. -/
structure ScanInv (g0 g : Grid) (recs : List ChangedCell) : Prop where
  hW : g.W = g0.W
  hH : g.H = g0.H
  nodup : (recs.map fun r => (r.x, r.y)).Nodup
  rbounds : ∀ r ∈ recs, r.x < g0.W ∧ r.y < g0.H
  rmoved : ∀ r ∈ recs, g.get r.x r.y = Cell.moved
  rvals : ∀ r ∈ recs,
    r.value = TILE_AIR ∨ r.value = TILE_LAND ∨ r.value = TILE_WATER
  movedAddr : ∀ x y, g.get x y = Cell.moved →
    g0.get x y = Cell.moved ∨ ∃ r ∈ recs, r.x = x ∧ r.y = y
  keep : ∀ x y, g.get x y ≠ Cell.moved → g.get x y = g0.get x y
  counts : ∀ v, v ≠ Cell.moved →
    g.count v + countRecs recs v = g0.count v

/-- A predicate preserved by every step of a left fold holds of the result. -/
theorem foldl_preserve {α : Type} {β : Type} (P : α → Prop) (f : α → β → α) :
    ∀ (l : List β) (init : α), P init →
      (∀ a b, b ∈ l → P a → P (f a b)) → P (l.foldl f init)
  | [], _, h0, _ => h0
  | b :: l, init, h0, h =>
      foldl_preserve P f l (f init b) (h init b (List.mem_cons_self b l) h0)
        (fun a c hc ha => h a c (List.mem_cons_of_mem _ hc) ha)

theorem Grid.W_set (g : Grid) (x y : Nat) (v : Cell) : (g.set x y v).W = g.W := rfl

theorem Grid.H_set (g : Grid) (x y : Nat) (v : Cell) : (g.set x y v).H = g.H := rfl

theorem Grid.get_eq_cells (g : Grid) {x y : Nat} (hx : x < g.W) (hy : y < g.H) :
    g.get x y = g.cells x y := if_pos ⟨hx, hy⟩

/-- Reading after a write: the written value at the written in-range
coordinates, the old reading everywhere else. -/
theorem Grid.get_set (g : Grid) (x y a b : Nat) (v : Cell) :
    (g.set x y v).get a b =
      if a = x ∧ b = y ∧ x < g.W ∧ y < g.H then v else g.get a b := by
  unfold Grid.get Grid.set
  dsimp only
  by_cases h1 : a = x ∧ b = y
  · obtain ⟨rfl, rfl⟩ := h1
    by_cases h2 : a < g.W ∧ b < g.H
    · simp [h2]
    · simp [h2]
  · have h2 : ¬(a = x ∧ b = y ∧ x < g.W ∧ y < g.H) := fun hc => h1 ⟨hc.1, hc.2.1⟩
    simp [h1, h2]

theorem Grid.get_set_eq (g : Grid) {x y : Nat} (v : Cell) (hx : x < g.W) (hy : y < g.H) :
    (g.set x y v).get x y = v := by
  rw [Grid.get_set, if_pos ⟨rfl, rfl, hx, hy⟩]

theorem Grid.get_set_ne (g : Grid) {x y a b : Nat} (v : Cell) (h : ¬(a = x ∧ b = y)) :
    (g.set x y v).get a b = g.get a b := by
  rw [Grid.get_set, if_neg (fun hc => h ⟨hc.1, hc.2.1⟩)]

/-- Writing one in-range cell exchanges its old value for the new one in
the value counts. -/
theorem Grid.count_set (g : Grid) {x y : Nat} (v : Cell) (hx : x < g.W) (hy : y < g.H)
    (u : Cell) :
    (g.set x y v).count u + (if g.cells x y = u then 1 else 0) =
      g.count u + (if v = u then 1 else 0) := by
  unfold Grid.count
  have hmem : (x, y) ∈ Finset.range g.W ×ˢ Finset.range g.H := by
    simp [Finset.mem_product, hx, hy]
  have hWH : (Finset.range (g.set x y v).W ×ˢ Finset.range (g.set x y v).H)
      = Finset.range g.W ×ˢ Finset.range g.H := rfl
  rw [hWH]
  rw [← Finset.add_sum_erase _ (fun p => if (g.set x y v).cells p.1 p.2 = u then 1 else 0) hmem]
  rw [← Finset.add_sum_erase _ (fun p => if g.cells p.1 p.2 = u then 1 else 0) hmem]
  have hcong :
      (∑ p ∈ (Finset.range g.W ×ˢ Finset.range g.H).erase (x, y),
        if (g.set x y v).cells p.1 p.2 = u then 1 else 0)
      = ∑ p ∈ (Finset.range g.W ×ˢ Finset.range g.H).erase (x, y),
          if g.cells p.1 p.2 = u then 1 else 0 := by
    refine Finset.sum_congr rfl fun p hp => ?_
    have hne : p ≠ (x, y) := Finset.ne_of_mem_erase hp
    have hne2 : ¬(p.1 = x ∧ p.2 = y) := by
      intro hc
      exact hne (Prod.ext hc.1 hc.2)
    simp [Grid.set, hne2]
  rw [hcong]
  have hself : (g.set x y v).cells x y = v := by
    simp [Grid.set]
  rw [hself]
  dsimp only
  omega

/-- The vertical trigger, characterized: land over air or water, or water
over air. -/
theorem vertMove_iff (t b : Cell) :
    vertMove t b = true ↔
      (t = TILE_LAND ∧ (b = TILE_AIR ∨ b = TILE_WATER)) ∨
      (t = TILE_WATER ∧ b = TILE_AIR) := by
  simp only [vertMove, Bool.or_eq_true, Bool.and_eq_true, beq_iff_eq]

/-- The horizontal trigger, characterized: on heads, water with air on its
left and no air below; on tails, air with water on its left and no air
below that water. -/
theorem horizMove_iff (c : Bool) (t bf b bb : Cell) :
    horizMove c t bf b bb = true ↔
      (c = true ∧ t = TILE_WATER ∧ bf = TILE_AIR ∧ b ≠ TILE_AIR) ∨
      (c = false ∧ t = TILE_AIR ∧ bf = TILE_WATER ∧ bb ≠ TILE_AIR) := by
  simp only [horizMove, Bool.or_eq_true, Bool.and_eq_true, Bool.not_eq_true',
    beq_iff_eq, beq_eq_false_iff_ne, ne_eq]
  tauto

/-- When the vertical rule has fired at a cell, the horizontal rule cannot
also fire there in the same pass: the stale `tile`/`tileBelow` variables
make its preconditions unsatisfiable. -/
theorem vert_horiz_exclusive {t b : Cell} (hv : vertMove t b = true)
    (c : Bool) (bf bb : Cell) : horizMove c t bf b bb = false := by
  by_contra hne
  rw [Bool.not_eq_false] at hne
  rcases (vertMove_iff t b).mp hv with ⟨ht, hb⟩ | ⟨ht, hb⟩ <;>
    rcases (horizMove_iff c t bf b bb).mp hne with ⟨_, ht2, _, hb2⟩ | ⟨_, ht2, _, _⟩
  · rw [ht] at ht2
    exact absurd ht2 (by decide)
  · rw [ht] at ht2
    exact absurd ht2 (by decide)
  · exact hb2 hb
  · rw [ht] at ht2
    exact absurd ht2 (by decide)

/-- Shape of one scan step: either nothing happens, or exactly one swap is
performed — two in-range distinct cells `c1` (the scanned cell, holding a
mobile tile value) and `c2` (its below or left neighbor, holding air or
water) are overwritten with the sentinel while two records carrying their
exchanged values are appended. -/
theorem stepCell_shape (coins : Nat → Nat → Bool) (g : Grid) (recs : List ChangedCell)
    (x y : Nat) (hx : x < g.W) :
    stepCell coins (g, recs) (x, y) = (g, recs) ∨
    ∃ x1 y1 x2 y2 v1 v2,
      x1 < g.W ∧ y1 < g.H ∧ x2 < g.W ∧ y2 < g.H ∧ ¬(x1 = x2 ∧ y1 = y2) ∧
      g.get x1 y1 = v1 ∧ g.get x2 y2 = v2 ∧
      (v1 = TILE_AIR ∨ v1 = TILE_LAND ∨ v1 = TILE_WATER) ∧
      (v2 = TILE_AIR ∨ v2 = TILE_WATER) ∧
      stepCell coins (g, recs) (x, y) =
        ((g.set x1 y1 Cell.moved).set x2 y2 Cell.moved,
         recs ++ [⟨x1, y1, v2⟩, ⟨x2, y2, v1⟩]) := by
  by_cases hy : y < g.H - 1
  · by_cases hv : vertMove (g.get x y) (g.get x (y + 1)) = true
    · right
      have hyH : y < g.H := by omega
      have hy1 : y + 1 < g.H := by omega
      have hex : ∀ c bf bb, horizMove c (g.get x y) bf (g.get x (y + 1)) bb = false :=
        fun c bf bb => vert_horiz_exclusive hv c bf bb
      refine ⟨x, y, x, y + 1, g.get x y, g.get x (y + 1), hx, hyH, hx, hy1,
        by omega, rfl, rfl, ?_, ?_, ?_⟩
      · rcases (vertMove_iff _ _).mp hv with ⟨ht, _⟩ | ⟨ht, _⟩
        · exact Or.inr (Or.inl ht)
        · exact Or.inr (Or.inr ht)
      · rcases (vertMove_iff _ _).mp hv with ⟨_, hb⟩ | ⟨_, hb⟩
        · exact hb
        · exact Or.inl hb
      · simp only [stepCell]
        simp [hy, hv, hex]
    · by_cases hx0 : 0 < x
      · by_cases hh : horizMove (coins x y) (g.get x y) (g.get (x - 1) y)
            (g.get x (y + 1)) (g.get (x - 1) (y + 1)) = true
        · right
          have hyH : y < g.H := by omega
          have hxW : x - 1 < g.W := by omega
          refine ⟨x, y, x - 1, y, g.get x y, g.get (x - 1) y, hx, hyH, hxW, hyH,
            by omega, rfl, rfl, ?_, ?_, ?_⟩
          · rcases (horizMove_iff _ _ _ _ _).mp hh with ⟨_, ht, _, _⟩ | ⟨_, ht, _, _⟩
            · exact Or.inr (Or.inr ht)
            · exact Or.inl ht
          · rcases (horizMove_iff _ _ _ _ _).mp hh with ⟨_, _, hb, _⟩ | ⟨_, _, hb, _⟩
            · exact Or.inl hb
            · exact Or.inr hb
          · simp only [stepCell]
            simp [hy, hv, hx0, hh]
        · left
          simp only [stepCell]
          simp [hy, hv, hx0, hh]
      · left
        simp only [stepCell]
        simp [hy, hv, hx0]
  · left
    simp only [stepCell]
    simp [hy]

/-- The scan invariant holds before the first step. -/
theorem scanInv_init (g : Grid) : ScanInv g g [] where
  hW := rfl
  hH := rfl
  nodup := List.nodup_nil
  rbounds := fun r hr => absurd hr (List.not_mem_nil r)
  rmoved := fun r hr => absurd hr (List.not_mem_nil r)
  rvals := fun r hr => absurd hr (List.not_mem_nil r)
  movedAddr := fun _ _ h => Or.inl h
  keep := fun _ _ _ => rfl
  counts := fun v _ => by simp [countRecs]

/-- The scan invariant is preserved by every scan step. -/
theorem scanInv_step (g0 : Grid) (coins : Nat → Nat → Bool) (g : Grid)
    (recs : List ChangedCell) (x y : Nat) (hx : x < g.W)
    (inv : ScanInv g0 g recs) :
    ScanInv g0 (stepCell coins (g, recs) (x, y)).1 (stepCell coins (g, recs) (x, y)).2 := by
  rcases stepCell_shape coins g recs x y hx with h | ⟨x1, y1, x2, y2, v1, v2,
    hx1, hy1, hx2, hy2, hne, hg1, hg2, hv1, hv2, h⟩
  · rw [h]
    exact inv
  rw [h]
  have hm1 : g.get x1 y1 ≠ Cell.moved := by
    rcases hv1 with h1 | h1 | h1 <;> rw [hg1, h1] <;> decide
  have hm2 : g.get x2 y2 ≠ Cell.moved := by
    rcases hv2 with h1 | h1 <;> rw [hg2, h1] <;> decide
  have hold1 : ∀ r ∈ recs, ¬(r.x = x1 ∧ r.y = y1) := by
    intro r hr hc
    exact hm1 (by rw [← hc.1, ← hc.2]; exact inv.rmoved r hr)
  have hold2 : ∀ r ∈ recs, ¬(r.x = x2 ∧ r.y = y2) := by
    intro r hr hc
    exact hm2 (by rw [← hc.1, ← hc.2]; exact inv.rmoved r hr)
  have hne21 : ¬(x2 = x1 ∧ y2 = y1) := fun hc => hne ⟨hc.1.symm, hc.2.symm⟩
  have hSg1 : ((g.set x1 y1 Cell.moved).set x2 y2 Cell.moved).get x1 y1 = Cell.moved := by
    rw [Grid.get_set_ne _ _ hne, Grid.get_set_eq g Cell.moved hx1 hy1]
  have hSg2 : ((g.set x1 y1 Cell.moved).set x2 y2 Cell.moved).get x2 y2 = Cell.moved :=
    Grid.get_set_eq _ Cell.moved hx2 hy2
  have hSother : ∀ a b, ¬(a = x1 ∧ b = y1) → ¬(a = x2 ∧ b = y2) →
      ((g.set x1 y1 Cell.moved).set x2 y2 Cell.moved).get a b = g.get a b := by
    intro a b h1 h2
    rw [Grid.get_set_ne _ _ h2, Grid.get_set_ne _ _ h1]
  refine { hW := inv.hW, hH := inv.hH, nodup := ?_, rbounds := ?_, rmoved := ?_,
           rvals := ?_, movedAddr := ?_, keep := ?_, counts := ?_ }
  · rw [List.map_append]
    have hcne : ((x1, y1) : Nat × Nat) ≠ (x2, y2) :=
      fun hc => hne ⟨congrArg Prod.fst hc, congrArg Prod.snd hc⟩
    refine List.Nodup.append inv.nodup ?_ ?_
    · simp only [List.map_cons, List.map_nil]
      simp [hcne]
    · intro p hp hpc
      simp only [List.mem_map] at hp
      obtain ⟨r, hr, rfl⟩ := hp
      simp only [List.map_cons, List.map_nil, List.mem_cons,
        List.not_mem_nil, or_false] at hpc
      rcases hpc with hc | hc
      · exact hold1 r hr ⟨congrArg Prod.fst hc, congrArg Prod.snd hc⟩
      · exact hold2 r hr ⟨congrArg Prod.fst hc, congrArg Prod.snd hc⟩
  · intro r hr
    rcases List.mem_append.mp hr with hr2 | hr2
    · exact inv.rbounds r hr2
    · simp only [List.mem_cons, List.not_mem_nil, or_false] at hr2
      rcases hr2 with rfl | rfl
      · exact ⟨inv.hW ▸ hx1, inv.hH ▸ hy1⟩
      · exact ⟨inv.hW ▸ hx2, inv.hH ▸ hy2⟩
  · intro r hr
    rcases List.mem_append.mp hr with hr2 | hr2
    · rw [hSother r.x r.y (hold1 r hr2) (hold2 r hr2)]
      exact inv.rmoved r hr2
    · simp only [List.mem_cons, List.not_mem_nil, or_false] at hr2
      rcases hr2 with rfl | rfl
      · exact hSg1
      · exact hSg2
  · intro r hr
    rcases List.mem_append.mp hr with hr2 | hr2
    · exact inv.rvals r hr2
    · simp only [List.mem_cons, List.not_mem_nil, or_false] at hr2
      rcases hr2 with rfl | rfl
      · rcases hv2 with h2 | h2
        · exact Or.inl h2
        · exact Or.inr (Or.inr h2)
      · exact hv1
  · intro a b hab
    by_cases hc1 : a = x1 ∧ b = y1
    · exact Or.inr ⟨⟨x1, y1, v2⟩, by simp, hc1.1.symm, hc1.2.symm⟩
    by_cases hc2 : a = x2 ∧ b = y2
    · exact Or.inr ⟨⟨x2, y2, v1⟩, by simp, hc2.1.symm, hc2.2.symm⟩
    rw [hSother a b hc1 hc2] at hab
    rcases inv.movedAddr a b hab with h2 | ⟨r, hr, hrc⟩
    · exact Or.inl h2
    · exact Or.inr ⟨r, List.mem_append_left _ hr, hrc⟩
  · intro a b hab
    have hne1 : ¬(a = x1 ∧ b = y1) := fun hc => hab (by rw [hc.1, hc.2]; exact hSg1)
    have hne2 : ¬(a = x2 ∧ b = y2) := fun hc => hab (by rw [hc.1, hc.2]; exact hSg2)
    have hEq := hSother a b hne1 hne2
    rw [hEq] at hab
    rw [hEq]
    exact inv.keep a b hab
  · intro v hv
    have hc1 : g.cells x1 y1 = v1 := by
      rw [← Grid.get_eq_cells g hx1 hy1]
      exact hg1
    have hc2 : (g.set x1 y1 Cell.moved).cells x2 y2 = v2 := by
      rw [← Grid.get_eq_cells (g.set x1 y1 Cell.moved) hx2 hy2, Grid.get_set_ne _ _ hne21]
      exact hg2
    have E1 := Grid.count_set g Cell.moved hx1 hy1 v
    rw [hc1, if_neg (Ne.symm hv)] at E1
    have E2 := Grid.count_set (g.set x1 y1 Cell.moved) Cell.moved hx2 hy2 v
    rw [hc2, if_neg (Ne.symm hv)] at E2
    have hcnt := inv.counts v hv
    have hcr : countRecs (recs ++ [⟨x1, y1, v2⟩, ⟨x2, y2, v1⟩]) v
        = countRecs recs v + ((if v2 = v then 1 else 0) + (if v1 = v then 1 else 0)) := by
      simp only [countRecs, List.countP_append, List.countP_cons, List.countP_nil]
      by_cases h2 : v2 = v <;> by_cases h1 : v1 = v <;>
        simp [h1, h2, beq_iff_eq]
    rw [hcr]
    by_cases h2 : v2 = v <;> by_cases h1 : v1 = v <;>
      simp only [h1, h2, if_pos, if_neg, if_true, if_false] at E1 E2 ⊢ <;>
      omega

/-- The scan invariant holds of the result of a whole physics pass. -/
theorem scanInv_applyPhysics (g : Grid) (coins : Nat → Nat → Bool) :
    ScanInv g (applyPhysics g coins).1 (applyPhysics g coins).2 := by
  unfold applyPhysics
  exact foldl_preserve (fun st : Grid × List ChangedCell => ScanInv g st.1 st.2)
    (fun st x => (List.range g.H).foldl (fun st2 y => stepCell coins st2 (x, y)) st)
    (List.range g.W) (g, []) (scanInv_init g)
    (fun st x hxmem hst =>
      foldl_preserve (fun st2 : Grid × List ChangedCell => ScanInv g st2.1 st2.2)
        (fun st2 y => stepCell coins st2 (x, y)) (List.range g.H) st hst
        (fun st2 y _ hst2 =>
          scanInv_step g coins st2.1 st2.2 x y
            (hst2.hW.symm ▸ List.mem_range.mp hxmem) hst2))

theorem drawScreen_W (g : Grid) (recs : List ChangedCell) :
    (drawScreen g recs).W = g.W := by
  induction recs generalizing g with
  | nil => rfl
  | cons r rs ih => exact ih (g.set r.x r.y r.value)

theorem drawScreen_H (g : Grid) (recs : List ChangedCell) :
    (drawScreen g recs).H = g.H := by
  induction recs generalizing g with
  | nil => rfl
  | cons r rs ih => exact ih (g.set r.x r.y r.value)

/-- A cell addressed by no record is untouched by the redraw. -/
theorem drawScreen_get_not_addressed :
    ∀ (recs : List ChangedCell) (g : Grid) (x y : Nat),
      (∀ r ∈ recs, ¬(r.x = x ∧ r.y = y)) →
      (drawScreen g recs).get x y = g.get x y
  | [], _, _, _, _ => rfl
  | r :: rs, g, x, y, h => by
    have h1 : ¬(x = r.x ∧ y = r.y) :=
      fun hc => h r (List.mem_cons_self r rs) ⟨hc.1.symm, hc.2.symm⟩
    show (drawScreen (g.set r.x r.y r.value) rs).get x y = g.get x y
    rw [drawScreen_get_not_addressed rs (g.set r.x r.y r.value) x y
      (fun t ht => h t (List.mem_cons_of_mem _ ht))]
    exact Grid.get_set_ne g r.value h1

/-- When record coordinates are pairwise distinct, an addressed in-range
cell ends up holding its record's value. -/
theorem drawScreen_get_addressed :
    ∀ (recs : List ChangedCell) (g : Grid) (r : ChangedCell),
      (recs.map fun t => (t.x, t.y)).Nodup → r ∈ recs → r.x < g.W → r.y < g.H →
      (drawScreen g recs).get r.x r.y = r.value
  | [], _, r, _, hr, _, _ => absurd hr (List.not_mem_nil r)
  | a :: rs, g, r, hnd, hr, hx, hy => by
    simp only [List.map_cons, List.nodup_cons] at hnd
    rcases List.mem_cons.mp hr with rfl | hr2
    · show (drawScreen (g.set r.x r.y r.value) rs).get r.x r.y = r.value
      rw [drawScreen_get_not_addressed rs (g.set r.x r.y r.value) r.x r.y ?_]
      · exact Grid.get_set_eq g r.value hx hy
      · intro t ht hc
        exact hnd.1 (by rw [← hc.1, ← hc.2]; exact List.mem_map_of_mem _ ht)
    · show (drawScreen (g.set a.x a.y a.value) rs).get r.x r.y = r.value
      exact drawScreen_get_addressed rs (g.set a.x a.y a.value) r hnd.2 hr2 hx hy

/-- Redrawing sentineled cells (one record per cell, all in range, record
values distinct from the sentinel) adds the record counts to the grid
counts of every non-sentinel value. -/
theorem count_drawScreen :
    ∀ (recs : List ChangedCell) (g : Grid),
      (recs.map fun t => (t.x, t.y)).Nodup →
      (∀ r ∈ recs, r.x < g.W ∧ r.y < g.H) →
      (∀ r ∈ recs, g.get r.x r.y = Cell.moved) →
      (∀ r ∈ recs, r.value ≠ Cell.moved) →
      ∀ v, v ≠ Cell.moved →
      (drawScreen g recs).count v = g.count v + countRecs recs v
  | [], g, _, _, _, _, v, _ => by simp [drawScreen, countRecs]
  | r :: rs, g, hnd, hb, hm, hval, v, hv => by
    simp only [List.map_cons, List.nodup_cons] at hnd
    have hbr := hb r (List.mem_cons_self r rs)
    have hmr := hm r (List.mem_cons_self r rs)
    have hcells : g.cells r.x r.y = Cell.moved := by
      rw [← Grid.get_eq_cells g hbr.1 hbr.2]
      exact hmr
    have E := Grid.count_set g r.value hbr.1 hbr.2 v
    rw [hcells, if_neg (fun hh : Cell.moved = v => hv hh.symm)] at E
    have hb2 : ∀ t ∈ rs, t.x < (g.set r.x r.y r.value).W ∧ t.y < (g.set r.x r.y r.value).H :=
      fun t ht => hb t (List.mem_cons_of_mem _ ht)
    have hm2 : ∀ t ∈ rs, (g.set r.x r.y r.value).get t.x t.y = Cell.moved := by
      intro t ht
      have hne : ¬(t.x = r.x ∧ t.y = r.y) :=
        fun hc => hnd.1 (by rw [← hc.1, ← hc.2]; exact List.mem_map_of_mem _ ht)
      rw [Grid.get_set_ne g r.value hne]
      exact hm t (List.mem_cons_of_mem _ ht)
    have hval2 : ∀ t ∈ rs, t.value ≠ Cell.moved :=
      fun t ht => hval t (List.mem_cons_of_mem _ ht)
    have IH := count_drawScreen rs (g.set r.x r.y r.value) hnd.2 hb2 hm2 hval2 v hv
    show (drawScreen (g.set r.x r.y r.value) rs).count v = g.count v + countRecs (r :: rs) v
    rw [IH]
    have hcr : countRecs (r :: rs) v = countRecs rs v + (if r.value = v then 1 else 0) := by
      simp only [countRecs, List.countP_cons]
      by_cases h1 : r.value = v <;> simp [h1, beq_iff_eq]
    rw [hcr]
    by_cases h1 : r.value = v <;> simp only [h1, if_true, if_false] at E ⊢ <;> omega

/-- The multiset of grid values counts each value the way `Grid.count` does. -/
theorem valueMultiset_count (g : Grid) (v : Cell) :
    Multiset.count v g.valueMultiset = g.count v := by
  unfold Grid.valueMultiset Grid.count
  rw [Multiset.count_map, ← Finset.card_filter]
  have h1 : (Finset.filter (fun p => g.cells p.1 p.2 = v)
        (Finset.range g.W ×ˢ Finset.range g.H)).card
      = Multiset.card (Multiset.filter (fun p => g.cells p.1 p.2 = v)
          (Finset.range g.W ×ˢ Finset.range g.H).val) := rfl
  rw [h1]
  have h2 : Multiset.filter (fun a => v = g.cells a.1 a.2)
        (Finset.range g.W ×ˢ Finset.range g.H).val
      = Multiset.filter (fun p => g.cells p.1 p.2 = v)
          (Finset.range g.W ×ˢ Finset.range g.H).val := by
    refine Multiset.filter_congr ?_
    intro p _
    exact eq_comm
  rw [h2]

/-- If no grid-proper cell holds `v`, the count of `v` is zero. -/
theorem count_eq_zero_of_forall (g : Grid) (v : Cell)
    (h : ∀ x < g.W, ∀ y < g.H, g.cells x y ≠ v) : g.count v = 0 := by
  unfold Grid.count
  refine Finset.sum_eq_zero ?_
  intro p hp
  rw [Finset.mem_product, Finset.mem_range, Finset.mem_range] at hp
  exact if_neg (h p.1 hp.1 p.2 hp.2)

/-- After a full pass and the redraw of its records, every in-range cell
of a clean grid again holds a public tile value. -/
theorem clean_after_redraw (g : Grid) (coins : Nat → Nat → Bool) (hcl : g.Clean) :
    ∀ a < g.W, ∀ b < g.H,
      ((drawScreen (applyPhysics g coins).1 (applyPhysics g coins).2).get a b).public
        = true := by
  intro a ha b hb
  have inv := scanInv_applyPhysics g coins
  by_cases hex : ∃ r ∈ (applyPhysics g coins).2, r.x = a ∧ r.y = b
  · obtain ⟨r, hr, hxx, hyy⟩ := hex
    have hbnd := inv.rbounds r hr
    have hget := drawScreen_get_addressed (applyPhysics g coins).2 (applyPhysics g coins).1 r
      inv.nodup hr (by rw [inv.hW]; exact hbnd.1) (by rw [inv.hH]; exact hbnd.2)
    rw [← hxx, ← hyy, hget]
    rcases inv.rvals r hr with h1 | h1 | h1 <;> rw [h1] <;> decide
  · have hnotaddr : ∀ r ∈ (applyPhysics g coins).2, ¬(r.x = a ∧ r.y = b) :=
      fun r hr hc => hex ⟨r, hr, hc⟩
    rw [drawScreen_get_not_addressed _ _ a b hnotaddr]
    have hnm : (applyPhysics g coins).1.get a b ≠ Cell.moved := by
      intro hmv
      rcases inv.movedAddr a b hmv with h2 | ⟨r, hr, hrc⟩
      · have hpub := hcl a ha b hb
        rw [h2] at hpub
        exact absurd hpub (by decide)
      · exact hnotaddr r hr hrc
    rw [inv.keep a b hnm]
    exact hcl a ha b hb

theorem renderStep_W (g : Grid) (coins : Nat → Nat → Bool) :
    (renderStep g coins).1.W = g.W := by
  show (drawScreen (applyPhysics g coins).1 (applyPhysics g coins).2).W = g.W
  rw [drawScreen_W]
  exact (scanInv_applyPhysics g coins).hW

theorem renderStep_H (g : Grid) (coins : Nat → Nat → Bool) :
    (renderStep g coins).1.H = g.H := by
  show (drawScreen (applyPhysics g coins).1 (applyPhysics g coins).2).H = g.H
  rw [drawScreen_H]
  exact (scanInv_applyPhysics g coins).hH

/-- A static-variant tile value is none of the three mobile values. -/
theorem static_not_mobile {c : String} (hcs : c ∈ staticTags) :
    Cell.tile c ≠ TILE_AIR ∧ Cell.tile c ≠ TILE_LAND ∧ Cell.tile c ≠ TILE_WATER := by
  simp only [staticTags, List.mem_cons, List.not_mem_nil, or_false] at hcs
  rcases hcs with rfl | rfl | rfl | rfl | rfl | rfl | rfl |
    rfl | rfl | rfl | rfl | rfl | rfl <;>
    exact ⟨by decide, by decide, by decide⟩

/-- A cell holding a static-variant value is never written and never
addressed by a record during a physics pass: it is not a mobile tile, so
it can be neither the scanned mover nor the displaced neighbor. -/
theorem staticInv_applyPhysics (g : Grid) (coins : Nat → Nat → Bool) (x y : Nat)
    (c : String) (hcs : c ∈ staticTags) (hg : g.get x y = Cell.tile c) :
    (applyPhysics g coins).1.get x y = Cell.tile c ∧
      ∀ r ∈ (applyPhysics g coins).2, ¬(r.x = x ∧ r.y = y) := by
  have hnm := static_not_mobile hcs
  have main := foldl_preserve
    (fun st : Grid × List ChangedCell =>
      st.1.W = g.W ∧ st.1.get x y = Cell.tile c ∧ ∀ r ∈ st.2, ¬(r.x = x ∧ r.y = y))
    (fun st a => (List.range g.H).foldl (fun st2 b => stepCell coins st2 (a, b)) st)
    (List.range g.W) (g, [])
    ⟨rfl, hg, fun r hr => absurd hr (List.not_mem_nil r)⟩
    ?_
  · exact ⟨main.2.1, main.2.2⟩
  intro st a hamem hst
  refine foldl_preserve
    (fun st2 : Grid × List ChangedCell =>
      st2.1.W = g.W ∧ st2.1.get x y = Cell.tile c ∧ ∀ r ∈ st2.2, ¬(r.x = x ∧ r.y = y))
    (fun st2 b => stepCell coins st2 (a, b)) (List.range g.H) st hst ?_
  intro st2 b _ hst2
  dsimp only
  obtain ⟨hW2, hget2, hrec2⟩ := hst2
  have haW : a < st2.1.W := by rw [hW2]; exact List.mem_range.mp hamem
  rcases stepCell_shape coins st2.1 st2.2 a b haW with h | ⟨x1, y1, x2, y2, v1, v2,
    hx1, hy1, hx2, hy2, hne, hg1, hg2, hv1, hv2, h⟩
  · rw [show stepCell coins st2 (a, b) = stepCell coins (st2.1, st2.2) (a, b) from rfl, h]
    exact ⟨hW2, hget2, hrec2⟩
  rw [show stepCell coins st2 (a, b) = stepCell coins (st2.1, st2.2) (a, b) from rfl, h]
  have hne1 : ¬(x = x1 ∧ y = y1) := by
    intro hc
    rw [hc.1, hc.2] at hget2
    have hcv : Cell.tile c = v1 := hget2.symm.trans hg1
    rcases hv1 with h1 | h1 | h1
    · exact hnm.1 (h1 ▸ hcv)
    · exact hnm.2.1 (h1 ▸ hcv)
    · exact hnm.2.2 (h1 ▸ hcv)
  have hne2 : ¬(x = x2 ∧ y = y2) := by
    intro hc
    rw [hc.1, hc.2] at hget2
    have hcv : Cell.tile c = v2 := hget2.symm.trans hg2
    rcases hv2 with h1 | h1
    · exact hnm.1 (h1 ▸ hcv)
    · exact hnm.2.2 (h1 ▸ hcv)
  refine ⟨hW2, ?_, ?_⟩
  · rw [Grid.get_set_ne _ _ hne2, Grid.get_set_ne _ _ hne1]
    exact hget2
  · intro r hr
    rcases List.mem_append.mp hr with hr2 | hr2
    · exact hrec2 r hr2
    · simp only [List.mem_cons, List.not_mem_nil, or_false] at hr2
      rcases hr2 with rfl | rfl
      · exact fun hc => hne1 ⟨hc.1.symm, hc.2.symm⟩
      · exact fun hc => hne2 ⟨hc.1.symm, hc.2.symm⟩

/-- Folding the last-write accumulator from `some v` gives the same final
value as folding from `none` with `v` as the fallback. -/
theorem lastWrite_some_aux :
    ∀ (recs : List ChangedCell) (v d : Cell) (x y : Nat),
      ((recs.foldl
        (fun acc r => if r.x = x ∧ r.y = y then some r.value else acc) (some v)).getD d)
      = ((recs.foldl
        (fun acc r => if r.x = x ∧ r.y = y then some r.value else acc) none).getD v)
  | [], _, _, _, _ => rfl
  | r :: rs, v, d, x, y => by
    simp only [List.foldl_cons]
    by_cases hc : r.x = x ∧ r.y = y
    · rw [if_pos hc, if_pos hc]
      exact (lastWrite_some_aux rs r.value d x y).trans
        (lastWrite_some_aux rs r.value v x y).symm
    · rw [if_neg hc, if_neg hc]
      exact lastWrite_some_aux rs v d x y

/-- The redraw leaves each in-range cell holding the value of the last
record addressing it, and its old value when no record addresses it. -/
theorem drawScreen_lastWrite :
    ∀ (recs : List ChangedCell) (g : Grid) (x y : Nat),
      x < g.W → y < g.H → (∀ r ∈ recs, r.x < g.W ∧ r.y < g.H) →
      (drawScreen g recs).get x y = (lastWrite recs x y).getD (g.get x y)
  | [], _, _, _, _, _, _ => rfl
  | r :: rs, g, x, y, hx, hy, hb => by
    have hbr := hb r (List.mem_cons_self r rs)
    have IH := drawScreen_lastWrite rs (g.set r.x r.y r.value) x y hx hy
      (fun t ht => hb t (List.mem_cons_of_mem _ ht))
    show (drawScreen (g.set r.x r.y r.value) rs).get x y
      = (lastWrite (r :: rs) x y).getD (g.get x y)
    rw [IH]
    simp only [lastWrite, List.foldl_cons]
    by_cases hc : r.x = x ∧ r.y = y
    · rw [if_pos hc]
      have hv : (g.set r.x r.y r.value).get x y = r.value := by
        rw [← hc.1, ← hc.2]
        exact Grid.get_set_eq g r.value hbr.1 hbr.2
      rw [hv]
      exact (lastWrite_some_aux rs r.value (g.get x y) x y).symm
    · rw [if_neg hc]
      rw [Grid.get_set_ne g r.value (fun hcc => hc ⟨hcc.1.symm, hcc.2.symm⟩)]

/-- Claim C1, counterexample: on the clean 1×2 grid with land over air,
the physics pass (the `tick()` that produces the changed-cell output)
returns with the `-1` sentinel still stored in both grid cells, so it is
not the case that after `tick()` every grid cell holds a public tile
value: the sentinel does remain in the grid at the moment the tick's
output is handed to the Render Sink, and only the redraw removes it. -/
theorem c1_counterexample :
    gFall.Clean ∧ (applyPhysics gFall coinsT).1.get 0 0 = Cell.moved ∧
      (applyPhysics gFall coinsT).1.get 0 1 = Cell.moved := by decide

/-- Claim C1, amended: on a clean grid, every changed-cell record the pass
emits carries a public tile value (the Render Sink is never handed the
sentinel), and once the redraw has applied the tick's output every grid
cell again holds a public tile value — the grid is sentinel-free after
the per-frame scan-plus-redraw, though not when the pass itself returns. -/
theorem c1_sentinel_cleared (g : Grid) (coins : Nat → Nat → Bool) (hcl : g.Clean) :
    (∀ r ∈ (applyPhysics g coins).2, r.value.public = true) ∧
      (renderStep g coins).1.Clean := by
  constructor
  · intro r hr
    rcases (scanInv_applyPhysics g coins).rvals r hr with h1 | h1 | h1 <;>
      rw [h1] <;> decide
  · intro a ha b hb
    have ha2 : a < g.W := by rw [← renderStep_W g coins]; exact ha
    have hb2 : b < g.H := by rw [← renderStep_H g coins]; exact hb
    exact clean_after_redraw g coins hcl a ha2 b hb2

/-- Witness for the amended claim C1 at the concrete grid `gFall`. -/
theorem c1_sentinel_cleared_witness :
    gFall.Clean ∧
      ((∀ r ∈ (applyPhysics gFall coinsT).2, r.value.public = true) ∧
        (renderStep gFall coinsT).1.Clean) :=
  ⟨by decide, c1_sentinel_cleared gFall coinsT (by decide)⟩

/-- Claim C2, counterexample: on the clean 1×2 grid with land over air,
the multiset of grid values right after the tick (`applyPhysics`) differs
from the multiset before it — the pass replaces both swapped values by
sentinels and only the subsequent redraw restores them. -/
theorem c2_counterexample :
    gFall.Clean ∧ (applyPhysics gFall coinsT).1.valueMultiset ≠ gFall.valueMultiset := by
  decide

/-- Claim C2, amended: on a clean grid a tick only ever exchanges pairs of
cells' values — every cell is addressed by at most one changed-cell record
per tick — and the multiset of tile values across the whole grid is
restored once the tick's records have been applied by the redraw
(scan plus redraw conserve mass; the scan alone does not). -/
theorem c2_conservation (g : Grid) (coins : Nat → Nat → Bool) (hcl : g.Clean) :
    (((applyPhysics g coins).2.map fun r => (r.x, r.y)).Nodup) ∧
      (renderStep g coins).1.valueMultiset = g.valueMultiset := by
  have inv := scanInv_applyPhysics g coins
  refine ⟨inv.nodup, ?_⟩
  refine Multiset.ext.mpr ?_
  intro v
  rw [valueMultiset_count, valueMultiset_count]
  by_cases hv : v = Cell.moved
  · subst hv
    have h2 : g.count Cell.moved = 0 := by
      refine count_eq_zero_of_forall g Cell.moved ?_
      intro a ha b hb
      have hpub := hcl a ha b hb
      rw [Grid.get_eq_cells g ha hb] at hpub
      intro hc
      rw [hc] at hpub
      exact absurd hpub (by decide)
    have h1 : (renderStep g coins).1.count Cell.moved = 0 := by
      refine count_eq_zero_of_forall _ Cell.moved ?_
      intro a ha b hb
      have ha2 : a < g.W := by rw [← renderStep_W g coins]; exact ha
      have hb2 : b < g.H := by rw [← renderStep_H g coins]; exact hb
      have hpub := clean_after_redraw g coins hcl a ha2 b hb2
      rw [show ((drawScreen (applyPhysics g coins).1 (applyPhysics g coins).2).get a b)
          = (renderStep g coins).1.get a b from rfl,
        Grid.get_eq_cells (renderStep g coins).1 ha hb] at hpub
      intro hc
      rw [hc] at hpub
      exact absurd hpub (by decide)
    rw [h1, h2]
  · have hvals : ∀ r ∈ (applyPhysics g coins).2, r.value ≠ Cell.moved := by
      intro r hr
      rcases inv.rvals r hr with h1 | h1 | h1 <;> rw [h1] <;> decide
    have hb : ∀ r ∈ (applyPhysics g coins).2,
        r.x < (applyPhysics g coins).1.W ∧ r.y < (applyPhysics g coins).1.H := by
      intro r hr
      have hbr := inv.rbounds r hr
      exact ⟨by rw [inv.hW]; exact hbr.1, by rw [inv.hH]; exact hbr.2⟩
    have hcd := count_drawScreen (applyPhysics g coins).2 (applyPhysics g coins).1
      inv.nodup hb inv.rmoved hvals v hv
    rw [show (renderStep g coins).1.count v
        = (drawScreen (applyPhysics g coins).1 (applyPhysics g coins).2).count v from rfl,
      hcd, inv.counts v hv]

/-- Witness for the amended claim C2 at the concrete grid `gFall`. -/
theorem c2_conservation_witness :
    gFall.Clean ∧
      ((((applyPhysics gFall coinsT).2.map fun r => (r.x, r.y)).Nodup) ∧
        (renderStep gFall coinsT).1.valueMultiset = gFall.valueMultiset) :=
  ⟨by decide, c2_conservation gFall coinsT (by decide)⟩

/-- Claim C3: for a scanned cell `(x, y)` with `y < H - 1`, if the cell
holds Land and the cell below holds Air or Water, or the cell holds Water
and the cell below holds Air, the step swaps the two cells: it emits
exactly two changed-cell records — new value at `(x, y)` the old below
value, new value at `(x, y+1)` the old tile — and immediately overwrites
both grid cells with the `-1` sentinel (`Cell.moved`). -/
theorem c3_vertical_rule (g : Grid) (recs : List ChangedCell)
    (coins : Nat → Nat → Bool) (x y : Nat) (hy : y < g.H - 1)
    (hcond : (g.get x y = TILE_LAND ∧
        (g.get x (y + 1) = TILE_AIR ∨ g.get x (y + 1) = TILE_WATER)) ∨
      (g.get x y = TILE_WATER ∧ g.get x (y + 1) = TILE_AIR)) :
    stepCell coins (g, recs) (x, y) =
      ((g.set x y Cell.moved).set x (y + 1) Cell.moved,
       recs ++ [⟨x, y, g.get x (y + 1)⟩, ⟨x, y + 1, g.get x y⟩]) := by
  have hv : vertMove (g.get x y) (g.get x (y + 1)) = true := (vertMove_iff _ _).mpr hcond
  have hex : ∀ cc bf bb, horizMove cc (g.get x y) bf (g.get x (y + 1)) bb = false :=
    fun cc bf bb => vert_horiz_exclusive hv cc bf bb
  simp only [stepCell]
  simp [hy, hv, hex]

/-- Witness for claim C3 on the grid `gFall` (land over air at `(0, 0)`). -/
theorem c3_vertical_rule_witness :
    ((0 : Nat) < gFall.H - 1) ∧ gFall.get 0 0 = TILE_LAND ∧ gFall.get 0 1 = TILE_AIR ∧
    stepCell coinsT (gFall, []) (0, 0) =
      ((gFall.set 0 0 Cell.moved).set 0 1 Cell.moved,
       [] ++ [⟨0, 0, gFall.get 0 1⟩, ⟨0, 1, gFall.get 0 0⟩]) :=
  ⟨by decide, by decide, by decide,
   c3_vertical_rule gFall [] coinsT 0 0 (by decide) (Or.inl ⟨by decide, Or.inl (by decide)⟩)⟩

/-- Claim C4: for a scanned cell `(x, y)` with `y < H - 1` and `x > 0` and
the cell's coin flip: on heads, if the cell holds Water, its left neighbor
holds Air and the cell below does not hold Air, the step swaps `(x, y)`
with `(x-1, y)`; on tails, if the cell holds Air, the left neighbor holds
Water and the cell below-left does not hold Air, the same swap happens;
each time two records are emitted (new value at `(x, y)` the old left
value, new value at `(x-1, y)` the old tile) and both cells are
overwritten with the sentinel. -/
theorem c4_horizontal_rule (g : Grid) (recs : List ChangedCell)
    (coins : Nat → Nat → Bool) (x y : Nat) (hx : 0 < x) (hy : y < g.H - 1) :
    (coins x y = true → g.get x y = TILE_WATER → g.get (x - 1) y = TILE_AIR →
      g.get x (y + 1) ≠ TILE_AIR →
      stepCell coins (g, recs) (x, y) =
        ((g.set x y Cell.moved).set (x - 1) y Cell.moved,
         recs ++ [⟨x, y, g.get (x - 1) y⟩, ⟨x - 1, y, g.get x y⟩])) ∧
    (coins x y = false → g.get x y = TILE_AIR → g.get (x - 1) y = TILE_WATER →
      g.get (x - 1) (y + 1) ≠ TILE_AIR →
      stepCell coins (g, recs) (x, y) =
        ((g.set x y Cell.moved).set (x - 1) y Cell.moved,
         recs ++ [⟨x, y, g.get (x - 1) y⟩, ⟨x - 1, y, g.get x y⟩])) := by
  constructor
  · intro hcoin ht hbf hb
    have hv : vertMove (g.get x y) (g.get x (y + 1)) = false := by
      cases hvv : vertMove (g.get x y) (g.get x (y + 1))
      · rfl
      · exfalso
        rcases (vertMove_iff _ _).mp hvv with ⟨h1, _⟩ | ⟨_, h2⟩
        · rw [ht] at h1
          exact absurd h1 (by decide)
        · exact hb h2
    have hh : horizMove (coins x y) (g.get x y) (g.get (x - 1) y)
        (g.get x (y + 1)) (g.get (x - 1) (y + 1)) = true :=
      (horizMove_iff _ _ _ _ _).mpr (Or.inl ⟨hcoin, ht, hbf, hb⟩)
    simp only [stepCell]
    simp [hy, hv, hx, hh]
  · intro hcoin ht hbf hbb
    have hv : vertMove (g.get x y) (g.get x (y + 1)) = false := by
      cases hvv : vertMove (g.get x y) (g.get x (y + 1))
      · rfl
      · exfalso
        rcases (vertMove_iff _ _).mp hvv with ⟨h1, _⟩ | ⟨h1, _⟩ <;>
          rw [ht] at h1 <;> exact absurd h1 (by decide)
    have hh : horizMove (coins x y) (g.get x y) (g.get (x - 1) y)
        (g.get x (y + 1)) (g.get (x - 1) (y + 1)) = true :=
      (horizMove_iff _ _ _ _ _).mpr (Or.inr ⟨hcoin, ht, hbf, hbb⟩)
    simp only [stepCell]
    simp [hy, hv, hx, hh]

/-- Witness for claim C4 on the grid `gSide` (air at `(1, 0)`, water on
its left, static below the water) with a tails coin flip. -/
theorem c4_horizontal_rule_witness :
    coinsF 1 0 = false ∧ gSide.get 1 0 = TILE_AIR ∧ gSide.get 0 0 = TILE_WATER ∧
    gSide.get 0 1 ≠ TILE_AIR ∧
    stepCell coinsF (gSide, []) (1, 0) =
      ((gSide.set 1 0 Cell.moved).set 0 0 Cell.moved,
       [] ++ [⟨1, 0, gSide.get 0 0⟩, ⟨0, 0, gSide.get 1 0⟩]) :=
  ⟨rfl, by decide, by decide, by decide,
   (c4_horizontal_rule gSide [] coinsF 1 0 (by decide) (by decide)).2 rfl
     (by decide) (by decide) (by decide)⟩

/-- Claim C5, counterexample: `gCapture` contains a water tile at `(1, 1)`
with air directly below, air to the left and air below-left, yet one tick
performs no swap originating at `(1, 1)` at all — land at `(1, 0)` falls
into the water first and sentinels `(1, 1)`, so the tick's only records
are those of the swap originating at `(1, 0)`; in particular no record
addresses row 2 and no record `(1, 1) ↦ Air` exists, though a vertical
fall originating at `(1, 1)` would have to emit both.  This refutes "for
every grid containing the pattern, one tick performs exactly one swap
originating at `(x, y)`: the vertical fall". -/
theorem c5_counterexample :
    gCapture.get 1 1 = TILE_WATER ∧ gCapture.get 1 2 = TILE_AIR ∧
    gCapture.get 0 1 = TILE_AIR ∧ gCapture.get 0 2 = TILE_AIR ∧
    (applyPhysics gCapture coinsT).2 = [⟨1, 0, TILE_WATER⟩, ⟨1, 1, TILE_LAND⟩] ∧
    (∀ r ∈ (applyPhysics gCapture coinsT).2,
      ¬(r.x = 1 ∧ r.y = 1 ∧ r.value = TILE_AIR) ∧ r.y ≠ 2) := by decide

/-- Claim C5, amended: when the scan reaches a cell that (at that moment)
holds Water with Air directly below, Air to the left and Air below-left,
the step performs exactly one swap for every coin-flip outcome: the
vertical fall, emitting exactly its two records; the horizontal rule does
not also fire on the already-moved water cell, because the stale
`tileBelow = Air` falsifies its precondition once the cell is sentineled. -/
theorem c5_single_swap (g : Grid) (recs : List ChangedCell)
    (coins : Nat → Nat → Bool) (x y : Nat) (hx : 0 < x) (hy : y < g.H - 1)
    (h1 : g.get x y = TILE_WATER) (h2 : g.get x (y + 1) = TILE_AIR)
    (h3 : g.get (x - 1) y = TILE_AIR) (h4 : g.get (x - 1) (y + 1) = TILE_AIR) :
    stepCell coins (g, recs) (x, y) =
      ((g.set x y Cell.moved).set x (y + 1) Cell.moved,
       recs ++ [⟨x, y, TILE_AIR⟩, ⟨x, y + 1, TILE_WATER⟩]) := by
  have hv : vertMove (g.get x y) (g.get x (y + 1)) = true :=
    (vertMove_iff _ _).mpr (Or.inr ⟨h1, h2⟩)
  have hex : ∀ cc bf bb, horizMove cc (g.get x y) bf (g.get x (y + 1)) bb = false :=
    fun cc bf bb => vert_horiz_exclusive hv cc bf bb
  simp only [h1, h2] at hv hex
  simp only [stepCell]
  simp [hy, hv, hex, h1, h2]

/-- Witness for the amended claim C5 on the Scenario-B grid `gScenB`. -/
theorem c5_single_swap_witness :
    ((0 : Nat) < 1 ∧ (0 : Nat) < gScenB.H - 1) ∧ gScenB.get 1 0 = TILE_WATER ∧
    gScenB.get 1 1 = TILE_AIR ∧ gScenB.get 0 0 = TILE_AIR ∧ gScenB.get 0 1 = TILE_AIR ∧
    stepCell coinsT (gScenB, []) (1, 0) =
      ((gScenB.set 1 0 Cell.moved).set 1 1 Cell.moved,
       [] ++ [⟨1, 0, TILE_AIR⟩, ⟨1, 1, TILE_WATER⟩]) :=
  ⟨⟨by decide, by decide⟩, by decide, by decide, by decide, by decide,
   c5_single_swap gScenB [] coinsT 1 0 (by decide) (by decide) (by decide)
     (by decide) (by decide) (by decide)⟩

/-- Claim C6: a cell holding a static variant value (the Static tag or any
color tag) is left unchanged by one tick — both right after the scan and
after the redraw of the tick's records — since no rule moves a static tile
or displaces it; moreover a static tile as the below neighbor blocks the
vertical rule and as the before neighbor blocks the horizontal rule. -/
theorem c6_static_inert (g : Grid) (x y : Nat) (c : String)
    (hcs : c ∈ staticTags) (hg : g.get x y = Cell.tile c) :
    (∀ coins : Nat → Nat → Bool,
      (applyPhysics g coins).1.get x y = Cell.tile c ∧
        (renderStep g coins).1.get x y = Cell.tile c) ∧
    (∀ t, vertMove t (Cell.tile c) = false) ∧
    (∀ coin t b bb, horizMove coin t (Cell.tile c) b bb = false) := by
  have hnm := static_not_mobile hcs
  have hba : (Cell.tile c == TILE_AIR) = false := beq_eq_false_iff_ne.mpr hnm.1
  have hbw : (Cell.tile c == TILE_WATER) = false := beq_eq_false_iff_ne.mpr hnm.2.2
  refine ⟨?_, ?_, ?_⟩
  · intro coins
    have hsi := staticInv_applyPhysics g coins x y c hcs hg
    refine ⟨hsi.1, ?_⟩
    show (drawScreen (applyPhysics g coins).1 (applyPhysics g coins).2).get x y
      = Cell.tile c
    rw [drawScreen_get_not_addressed _ _ x y hsi.2]
    exact hsi.1
  · intro t
    simp [vertMove, hba, hbw]
  · intro coin t b bb
    simp [horizMove, hba, hbw]

/-- Witness for claim C6: the static tile at `(0, 1)` of `gSide`. -/
theorem c6_static_inert_witness :
    ("s" ∈ staticTags) ∧ gSide.get 0 1 = Cell.tile "s" ∧
    ((applyPhysics gSide coinsT).1.get 0 1 = Cell.tile "s" ∧
      (renderStep gSide coinsT).1.get 0 1 = Cell.tile "s") ∧
    vertMove TILE_LAND (Cell.tile "s") = false ∧
    horizMove true TILE_WATER (Cell.tile "s") TILE_LAND TILE_LAND = false :=
  ⟨by decide, by decide,
   (c6_static_inert gSide 0 1 "s" (by decide) (by decide)).1 coinsT,
   (c6_static_inert gSide 0 1 "s" (by decide) (by decide)).2.1 TILE_LAND,
   (c6_static_inert gSide 0 1 "s" (by decide) (by decide)).2.2 true TILE_WATER
     TILE_LAND TILE_LAND⟩

/-- Claim C7: every changed-cell record emitted by a tick has in-bounds
coordinates, `x < W` and `y < H` (coordinates are naturals, so `0 ≤ x`
and `0 ≤ y` hold by type). -/
theorem c7_record_bounds (g : Grid) (coins : Nat → Nat → Bool) (r : ChangedCell)
    (hr : r ∈ (applyPhysics g coins).2) : r.x < g.W ∧ r.y < g.H :=
  (scanInv_applyPhysics g coins).rbounds r hr

/-- Witness for claim C7: the first record of the tick on `gFall`. -/
theorem c7_record_bounds_witness :
    (⟨0, 0, TILE_AIR⟩ : ChangedCell) ∈ (applyPhysics gFall coinsT).2 ∧
    ((⟨0, 0, TILE_AIR⟩ : ChangedCell).x < gFall.W ∧
      (⟨0, 0, TILE_AIR⟩ : ChangedCell).y < gFall.H) :=
  ⟨by decide, c7_record_bounds gFall coinsT ⟨0, 0, TILE_AIR⟩ (by decide)⟩

/-- Claim C8, counterexample: the scan of a 1×1 grid performs the grid
read at index `(0, 1)` — the `tileBelow` lookup of the bottom-row cell
`(0, 0)`, executed before the `y < H - 1` guard — and that read is out of
range (`1 < 1` fails).  This refutes "every below-neighbor lookup is
performed only under the guard `y < H - 1`, so no grid access during the
scan is out of range". -/
theorem c8_counterexample :
    ((0, 1) : Nat × Nat) ∈ scanReads 1 1 ∧ ¬ ((0, 1) : Nat × Nat).2 < 1 := by decide

/-- Claim C8, amended: every grid read of the scan satisfies `x < W` and
`y ≤ H` — the guarded left and below-left lookups are in range, and the
only reads ever touching `y = H` are the unconditional below lookups of
bottom-row cells — and the out-of-range value can never influence the
tick, because the step at any cell failing `y < H - 1` is a no-op. -/
theorem c8_guarded_reads :
    (∀ (W H : Nat), ∀ p ∈ scanReads W H, p.1 < W ∧ p.2 ≤ H) ∧
    (∀ (coins : Nat → Nat → Bool) (st : Grid × List ChangedCell) (x y : Nat),
      ¬ y < st.1.H - 1 → stepCell coins st (x, y) = st) := by
  constructor
  · intro W H
    refine foldl_preserve (fun acc : List (Nat × Nat) => ∀ p ∈ acc, p.1 < W ∧ p.2 ≤ H)
      (fun acc x => (List.range H).foldl
        (fun acc2 y =>
          acc2 ++ [(x, y), (x, y + 1)] ++
            (if y < H - 1 ∧ 0 < x then [(x - 1, y), (x - 1, y + 1)] else []))
        acc)
      (List.range W) [] (fun p hp => absurd hp (List.not_mem_nil p)) ?_
    intro acc x hxmem hacc
    refine foldl_preserve (fun acc2 : List (Nat × Nat) => ∀ p ∈ acc2, p.1 < W ∧ p.2 ≤ H)
      (fun acc2 y =>
        acc2 ++ [(x, y), (x, y + 1)] ++
          (if y < H - 1 ∧ 0 < x then [(x - 1, y), (x - 1, y + 1)] else []))
      (List.range H) acc hacc ?_
    intro acc2 y hymem hacc2
    intro p hp
    have hxW := List.mem_range.mp hxmem
    have hyH := List.mem_range.mp hymem
    rcases List.mem_append.mp hp with hp2 | hp2
    · rcases List.mem_append.mp hp2 with hp3 | hp3
      · exact hacc2 p hp3
      · simp only [List.mem_cons, List.not_mem_nil, or_false] at hp3
        rcases hp3 with rfl | rfl
        · exact ⟨hxW, by omega⟩
        · exact ⟨hxW, by omega⟩
    · by_cases hcond : y < H - 1 ∧ 0 < x
      · rw [if_pos hcond] at hp2
        simp only [List.mem_cons, List.not_mem_nil, or_false] at hp2
        rcases hp2 with rfl | rfl
        · exact ⟨by omega, by omega⟩
        · exact ⟨by omega, by omega⟩
      · rw [if_neg hcond] at hp2
        exact absurd hp2 (List.not_mem_nil p)
  · intro coins st x y hy
    simp only [stepCell]
    simp [hy]

/-- Witness for the amended claim C8: the out-of-range bottom-row read of
the 1×1 scan is the only read beyond `H`, and the bottom-row step of
`gFall` is a no-op. -/
theorem c8_guarded_reads_witness :
    ((0 : Nat) < 1 ∧ (1 : Nat) ≤ 1) ∧ stepCell coinsT (gFall, []) (0, 1) = (gFall, []) :=
  ⟨c8_guarded_reads.1 1 1 (0, 1) (by decide),
   c8_guarded_reads.2 coinsT (gFall, []) 0 1 (by decide)⟩

/-- Claim C9: a key press updates the currently selected tile type exactly
when the key is one of the keys of the tile-color mapping — the four
nature tags plus the color tags `0`-`9`, `-`, `=` — and is otherwise a
no-op that retains the prior selection, with no error. -/
theorem c9_tile_selection (cur key : String) :
    updateCurrentTileType cur key = if key ∈ publicTags then key else cur := by
  by_cases h : key ∈ publicTags
  · rw [if_pos h]
    simp only [publicTags, List.mem_cons, List.not_mem_nil, or_false] at h
    rcases h with rfl | rfl | rfl | rfl | rfl | rfl | rfl | rfl |
      rfl | rfl | rfl | rfl | rfl | rfl | rfl | rfl <;> rfl
  · rw [if_neg h]
    simp only [publicTags, List.mem_cons, List.not_mem_nil, or_false, not_or] at h
    obtain ⟨h1, h2, h3, h4, h5, h6, h7, h8, h9, h10, h11, h12, h13, h14, h15, h16⟩ := h
    unfold updateCurrentTileType TILE_COLORS
    simp [List.lookup, beq_eq_false_iff_ne.mpr h1, beq_eq_false_iff_ne.mpr h2,
      beq_eq_false_iff_ne.mpr h3, beq_eq_false_iff_ne.mpr h4,
      beq_eq_false_iff_ne.mpr h5, beq_eq_false_iff_ne.mpr h6,
      beq_eq_false_iff_ne.mpr h7, beq_eq_false_iff_ne.mpr h8,
      beq_eq_false_iff_ne.mpr h9, beq_eq_false_iff_ne.mpr h10,
      beq_eq_false_iff_ne.mpr h11, beq_eq_false_iff_ne.mpr h12,
      beq_eq_false_iff_ne.mpr h13, beq_eq_false_iff_ne.mpr h14,
      beq_eq_false_iff_ne.mpr h15, beq_eq_false_iff_ne.mpr h16]

/-- Claim C10: redrawing a list of in-bounds changed-cell records writes
each record's value into the grid in list order, so afterwards an in-range
cell addressed by at least one record holds the value of the last record
addressing it, and a cell addressed by no record is unchanged (it is this
redraw, not the scan, that replaces the tick's sentinels by true values). -/
theorem c10_redraw (g : Grid) (tilesToRedraw : List ChangedCell) (x y : Nat)
    (hx : x < g.W) (hy : y < g.H)
    (hb : ∀ r ∈ tilesToRedraw, r.x < g.W ∧ r.y < g.H) :
    (drawScreen g tilesToRedraw).get x y
      = (lastWrite tilesToRedraw x y).getD (g.get x y) :=
  drawScreen_lastWrite tilesToRedraw g x y hx hy hb

/-- Witness for claim C10: two records addressing `(0, 0)` of `gFall`;
the later record wins. -/
theorem c10_redraw_witness :
    ((0 : Nat) < gFall.W ∧ (0 : Nat) < gFall.H ∧
      (∀ r ∈ [(⟨0, 0, TILE_WATER⟩ : ChangedCell), ⟨0, 0, TILE_STATIC⟩],
        r.x < gFall.W ∧ r.y < gFall.H)) ∧
    (drawScreen gFall [⟨0, 0, TILE_WATER⟩, ⟨0, 0, TILE_STATIC⟩]).get 0 0
      = (lastWrite [⟨0, 0, TILE_WATER⟩, ⟨0, 0, TILE_STATIC⟩] 0 0).getD (gFall.get 0 0) :=
  ⟨⟨by decide, by decide, by decide⟩,
   c10_redraw gFall [⟨0, 0, TILE_WATER⟩, ⟨0, 0, TILE_STATIC⟩] 0 0
     (by decide) (by decide) (by decide)⟩
